import Mathlib

/-!
Shallow embedding of the odds backend (src/odds.js and src/src/index.js).

JavaScript dynamic values are modelled by the inductive type `JsVal`:
finite numbers are exact rationals (`ℚ`), the non-finite numbers `NaN`,
`Infinity` and `-Infinity` are separate constructors, and strings that
the code only ever feeds to `Number(...)` / truthiness tests are
represented by their numeric parse (`numStr q` is a non-empty string
whose `Number(...)` is the finite number `q`, `nanStr` a non-empty
string that does not parse, `emptyStr` the empty string).  JavaScript
float arithmetic is modelled exactly over `ℚ`; `toFixed` is modelled
for non-negative arguments (the only ones the code produces) as
round-half-up to the given number of digits.  String lower-casing is
modelled on the basic-latin range via the core `Char.toLower`, which
matches `String.prototype.toLowerCase` on ASCII data.
-/

/-- JavaScript values, as far as odds.js inspects them. -/
inductive JsVal where
  | undef
  | null
  | num (q : ℚ)
  | nan
  | inf
  | ninf
  | emptyStr
  | numStr (q : ℚ)
  | nanStr
deriving DecidableEq, Repr

/-- JavaScript truthiness (`Boolean(v)`) for the values of `JsVal`.
`numStr q` and `nanStr` stand for non-empty strings, hence truthy. -/
def jsTruthy : JsVal → Bool
  | .undef => false
  | .null => false
  | .num q => q != 0
  | .nan => false
  | .inf => true
  | .ninf => true
  | .emptyStr => false
  | .numStr _ => true
  | .nanStr => true

/-- JavaScript loose equality with null (`v == null`), true exactly for
`null` and `undefined`. -/
def jsLooseEqNull : JsVal → Bool
  | .undef => true
  | .null => true
  | _ => false

/-- The JavaScript `Number(v)` coercion on `JsVal`, returned as a `JsVal`
(always a number: finite, `NaN` or an infinity). -/
def jsNumberFn : JsVal → JsVal
  | .undef => .nan
  | .null => .num 0
  | .num q => .num q
  | .nan => .nan
  | .inf => .inf
  | .ninf => .ninf
  | .emptyStr => .num 0
  | .numStr q => .num q
  | .nanStr => .nan

/-- Value of `Number(v)` when it is a finite number; `none` when it is
`NaN` or infinite (exactly the values rejected by `Number.isFinite`). -/
def jsToNumber (v : JsVal) : Option ℚ :=
  match jsNumberFn v with
  | .num q => some q
  | _ => none

/-- Numeric reading of a decimal-odds slot: the empty string `""` (here
`none`) coerces to `0` in JavaScript comparisons. -/
def toQ : Option ℚ → ℚ
  | none => 0
  | some q => q

/-- The JavaScript comparison `x > y` for the values stored in the
`decimal` slot of a best-price record: either a finite non-negative
number or the empty string `""` (modelled by `none`).  A number against
`""` coerces `""` to `0`; `"" > ""` is a string comparison and is false. -/
def jsGT : Option ℚ → Option ℚ → Bool
  | some a, some b => a > b
  | some a, none => a > 0
  | none, some b => 0 > b
  | none, none => false

/-- Model of `Number(x.toFixed(d))` for a non-negative float `x`, exactly
over `ℚ`: round half up (`toFixed` rounds half away from zero, which for
the non-negative arguments produced by odds.js is half up) at `d`
decimal digits. -/
def jsToFixed (d : ℕ) (x : ℚ) : ℚ :=
  (⌊x * (10 : ℚ) ^ d + 1 / 2⌋ : ℚ) / (10 : ℚ) ^ d

/-- Model of `s.toLowerCase()` on ASCII data: map the core basic-latin
`Char.toLower` over the characters. -/
def jsToLower (s : String) : String :=
  ⟨s.data.map Char.toLower⟩

/-- Model of `s.startsWith("u")`: the first character is `u`. -/
def strStartsWithU (s : String) : Bool :=
  match s.data with
  | [] => false
  | c :: _ => c == 'u'

/-- Test that `t` is an initial run of `s` (character lists). -/
def leadChars : List Char → List Char → Bool
  | [], _ => true
  | _ :: _, [] => false
  | a :: as, b :: bs => a == b && leadChars as bs

/-- Test that `t` occurs contiguously inside `s` (character lists). -/
def hasChunk : List Char → List Char → Bool
  | t, [] => leadChars t []
  | t, c :: rest => leadChars t (c :: rest) || hasChunk t rest

/-- JavaScript `s.includes(t)`. -/
def strIncludes (s t : String) : Bool :=
  hasChunk t.data s.data

/-- Result record of `fromAmerican`: `none` models the empty string
returned for a value that is not a finite non-zero number. -/
structure Conv where
  decimal : Option ℚ
  impliedPct : Option ℚ
deriving DecidableEq, Repr

/-- odds.js `fromAmerican(am)`: convert American odds to decimal odds and
implied probability percentage, or empty results when `Number(am)` is
not finite or is zero. -/
def fromAmerican (am : JsVal) : Conv :=
  match jsToNumber am with
  | none => ⟨none, none⟩
  | some n =>
    if n = 0 then ⟨none, none⟩
    else
      let decimal : ℚ := if 0 < n then 1 + n / 100 else 1 + 100 / |n|
      let implied : ℚ := if 0 < n then 100 / (n + 100) else |n| / (|n| + 100)
      ⟨some (jsToFixed 4 decimal), some (jsToFixed 2 (implied * 100))⟩

/-- odds.js `normalizeMarket`, applied to the already lower-cased string
`s = String(m || "").toLowerCase()`. -/
def normalizeMarketKey (s : String) : String :=
  if s = "ml" ∨ s = "moneyline" ∨ s = "h2h" then "h2h"
  else if s = "spread" ∨ s = "spreads" ∨ s = "ats" then "spreads"
  else if s = "total" ∨ s = "totals" ∨ s = "o/u" ∨ s = "ou" then "totals"
  else if s = "" then "h2h" else s

/-- odds.js `normalizeMarket(m)`; the argument is `undefined` (`none`) or
a string.  (`fetchOddsAndNormalize` declares a default of `"h2h"` for a
missing market; since `normalizeMarket` maps both `undefined` and
`"h2h"` to `"h2h"`, passing the raw option is equivalent.) -/
def normalizeMarket (m : Option String) : String :=
  normalizeMarketKey (jsToLower (m.getD ""))

/-- One element of a market's `outcomes` array.  A `null` array entry is
represented by `name := none` and `undef` fields, which produces the
same observable behaviour under the `o?.` accesses of odds.js. -/
structure Outcome where
  name : Option String
  point : JsVal
  price : JsVal
deriving DecidableEq, Repr

/-- The selection-criteria argument of `pickOutcome`
(`{ team, side, spreadPoint, totalPoint }`). -/
structure Criteria where
  team : Option String
  side : Option String
  spreadPoint : JsVal
  totalPoint : JsVal
deriving DecidableEq, Repr

/-- Model of `String(o?.name || "").toLowerCase()`. -/
def outName (o : Outcome) : String :=
  jsToLower (o.name.getD "")

/-- The spreads filter closure of `pickOutcome`: name equals the
lower-cased team. -/
def spreadFlt (c : Criteria) (o : Outcome) : Bool :=
  outName o == jsToLower (c.team.getD "")

/-- The totals side normalization of `pickOutcome`: any side whose
lower-casing starts with "u" means "under", everything else "over". -/
def wantedSide (c : Criteria) : String :=
  if strStartsWithU (jsToLower (c.side.getD "")) then "under" else "over"

/-- The totals filter closure of `pickOutcome`: name equals the wanted
side. -/
def totalsFlt (c : Criteria) (o : Outcome) : Bool :=
  outName o == wantedSide c

/-- The scanning loop of `nearestByPoint` for a finite numeric `want`:
running best outcome together with its current distance `bestDiff`,
starting from `best = null`, `bestDiff = Infinity` (`none`).  Outcomes
whose `Number(point)` is not finite are skipped. -/
def nearLoop (w : ℚ) : List Outcome → Option (Outcome × ℚ) → Option (Outcome × ℚ)
  | [], acc => acc
  | o :: rest, acc =>
    match jsToNumber o.point with
    | none => nearLoop w rest acc
    | some p =>
      match acc with
      | none => nearLoop w rest (some (o, |p - w|))
      | some (b, bd) =>
        if |p - w| < bd then nearLoop w rest (some (o, |p - w|))
        else nearLoop w rest (some (b, bd))

/-- odds.js `nearestByPoint(flt, want)`, applied to the already filtered
array.  `want` is always the result of a `Number(...)` coercion at both
call sites, so the `want == null` early return is in fact unreachable
there; it is kept for faithfulness.  When `want` is a non-finite number
(`NaN` or an infinity) the loop never updates `best`: every comparison
`Math.abs(p - want) < bestDiff` is false (the difference is `NaN` or
`Infinity`, `bestDiff` starts at `Infinity`), so `best || arr[0]` yields
the first filtered outcome directly. -/
def nearestByPoint (arr : List Outcome) (want : JsVal) : Option Outcome :=
  match arr with
  | [] => none
  | a :: _ =>
    if jsLooseEqNull want then some a
    else
      match want with
      | .num w =>
        match nearLoop w arr none with
        | some (b, _) => some b
        | none => some a
      | _ => some a

/-- odds.js `pickOutcome(marketKey, outcomes, criteria)`.  `outcomes` is
`none` when the field is not an array. -/
def pickOutcome (marketKey : String) (outcomes : Option (List Outcome)) (c : Criteria) :
    Option Outcome :=
  match outcomes with
  | none => none
  | some outs =>
    if outs.isEmpty then none
    else if marketKey = "h2h" then
      if (c.team.getD "") ≠ "" then
        match outs.find? (fun o => outName o == jsToLower (c.team.getD "")) with
        | some o => some o
        | none => outs.head?
      else outs.head?
    else if marketKey = "spreads" then
      nearestByPoint (outs.filter (spreadFlt c)) (jsNumberFn c.spreadPoint)
    else if marketKey = "totals" then
      nearestByPoint (outs.filter (totalsFlt c)) (jsNumberFn c.totalPoint)
    else outs.head?

/-- One entry of a bookmaker's `markets` array (a `null` entry is
`key := none`, matching the `m?.key` access). -/
structure Market where
  key : Option String
  outcomes : Option (List Outcome)
deriving DecidableEq, Repr

/-- One bookmaker object of an event.  A missing or falsy `markets`
field behaves as `[]` (`b.markets || []`), so it is kept as a plain
list. -/
structure Bookmaker where
  key : Option String
  markets : List Market
deriving DecidableEq, Repr

/-- One event of the upstream response.  `bookmakers` is `none` when it
is not an array; a `null` element inside the array is `Option.none` and
makes the scan throw (`b.markets` on `null`), which the caller catches. -/
structure Event where
  home_team : Option String
  away_team : Option String
  bookmakers : Option (List (Option Bookmaker))
deriving DecidableEq, Repr

/-- The best-price record accumulated by `fetchOddsAndNormalize`. -/
structure Best where
  book : Option String
  american : JsVal
  decimal : Option ℚ
  impliedPct : Option ℚ
  pickedPoint : JsVal
deriving DecidableEq, Repr

/-- The body of the bookmaker loop of `fetchOddsAndNormalize` for one
bookmaker object: find the market entry whose lower-cased key equals the
normalized market key, pick an outcome, skip null prices, convert and
keep the record when there is no best yet or the new decimal compares
greater. -/
def stepBook (marketKey : String) (c : Criteria) (b : Bookmaker) (best : Option Best) :
    Option Best :=
  match b.markets.find? (fun m => jsToLower (m.key.getD "") == marketKey) with
  | none => best
  | some mk =>
    match pickOutcome marketKey mk.outcomes c with
    | none => best
    | some o =>
      if jsLooseEqNull o.price then best
      else
        let conv := fromAmerican o.price
        match best with
        | none => some ⟨b.key, o.price, conv.decimal, conv.impliedPct, o.point⟩
        | some cur =>
          if jsGT conv.decimal cur.decimal then
            some ⟨b.key, o.price, conv.decimal, conv.impliedPct, o.point⟩
          else some cur

/-- The bookmaker loop.  A `null` entry aborts the loop with the current
best: `b.markets` on `null` throws, the exception is caught by the
surrounding try/catch and the function proceeds to build its output from
the best accumulated so far. -/
def scanBooks (marketKey : String) (c : Criteria) :
    List (Option Bookmaker) → Option Best → Option Best
  | [], best => best
  | none :: _, best => best
  | some b :: rest, best => scanBooks marketKey c rest (stepBook marketKey c b best)

/-- The seeding step of `fetchOddsAndNormalize`: when `line` is truthy,
start from its conversion with a `null` book and no picked point. -/
def seedBest (line : JsVal) : Option Best :=
  if jsTruthy line then
    let conv := fromAmerican line
    some ⟨none, line, conv.decimal, conv.impliedPct, .undef⟩
  else none

/-- The event predicate of the scan: home or away team name contains the
lower-cased requested team. -/
def evMatches (teamLower : String) (e : Event) : Bool :=
  strIncludes (jsToLower (e.home_team.getD "")) teamLower ||
    strIncludes (jsToLower (e.away_team.getD "")) teamLower

/-- Event selection: `(teamLower ? events.find(...) : events[0]) ||
events[0]`. -/
def selectEvent (teamLower : String) (events : List Event) : Option Event :=
  match (if teamLower ≠ "" then events.find? (evMatches teamLower) else none) with
  | some e => some e
  | none => events.head?

/-- The request arguments of `fetchOddsAndNormalize` (after the HTTP
layer's query parsing). -/
structure FetchArgs where
  sportKey : Option String
  market : Option String
  team : Option String
  side : Option String
  spreadPoint : JsVal
  totalPoint : JsVal
  books : List String
  line : JsVal
deriving DecidableEq, Repr

/-- Process configuration (`ODDS_API_BASE`, `ODDS_API_KEY`). -/
structure Config where
  apiBase : String
  apiKey : String
deriving DecidableEq, Repr

/-- The `canFetch` eligibility test of `fetchOddsAndNormalize`. -/
def canFetch (cfg : Config) (a : FetchArgs) : Bool :=
  cfg.apiBase != "" && cfg.apiKey != "" && (a.sportKey.getD "") != "" && !a.books.isEmpty

/-- The selection criteria passed from `fetchOddsAndNormalize` to
`pickOutcome`. -/
def critOf (a : FetchArgs) : Criteria :=
  ⟨a.team, a.side, a.spreadPoint, a.totalPoint⟩

/-- Outcome of the single upstream HTTP request: an exception during the
fetch, the JSON parse or the response selection (caught and absorbed), a
non-ok HTTP status, or a parsed list of events. -/
inductive Upstream where
  | exn
  | notOk
  | ok (events : List Event)
deriving DecidableEq, Repr

/-- The final response mapping of `fetchOddsAndNormalize`; `none` is the
empty object `{}`.  The `"Implied %"` output field is the string
`impliedPct + "%"`; the record keeps the underlying value. -/
structure OutRec where
  book : Option String
  oddsAm : JsVal
  decimal : Option ℚ
  impliedPct : Option ℚ
  point : Option JsVal
deriving DecidableEq, Repr

/-- The output-building tail of `fetchOddsAndNormalize`: `Book` only for
a truthy book key, the point only for spreads/totals with a non-null
picked point. -/
def buildOut (marketKey : String) : Option Best → Option OutRec
  | none => none
  | some b =>
    some
      { book := match b.book with
          | some s => if s = "" then none else some s
          | none => none
        oddsAm := b.american
        decimal := b.decimal
        impliedPct := b.impliedPct
        point :=
          if (marketKey = "spreads" ∨ marketKey = "totals") ∧ jsLooseEqNull b.pickedPoint = false
          then some b.pickedPoint else none }

/-- odds.js `fetchOddsAndNormalize`, with the upstream response passed in
explicitly.  (`Upstream.exn` also covers traversal throws that happen
before the bookmaker loop starts, e.g. a non-array events payload or a
`null` event entry; a throw inside the loop is modelled by a `none`
bookmaker entry, see `scanBooks`.) -/
def fetchOddsAndNormalize (cfg : Config) (a : FetchArgs) (up : Upstream) : Option OutRec :=
  let best0 := seedBest a.line
  let marketKey := normalizeMarket a.market
  let best :=
    if canFetch cfg a then
      match up with
      | .exn => best0
      | .notOk => best0
      | .ok events =>
        match selectEvent (jsToLower (a.team.getD "")) events with
        | none => best0
        | some ev =>
          match ev.bookmakers with
          | none => best0
          | some bs => scanBooks marketKey (critOf a) bs best0
    else best0
  buildOut marketKey best

/-- Ghost function mirroring `scanBooks`: the decimal conversions of the
bookmaker prices that the scan actually considers (market key matched,
an outcome was picked and its price is non-null), in scan order, cut off
at the first throwing (`none`) bookmaker entry. -/
def consideredDecimals (marketKey : String) (c : Criteria) :
    List (Option Bookmaker) → List (Option ℚ)
  | [] => []
  | none :: _ => []
  | some b :: rest =>
    match b.markets.find? (fun m => jsToLower (m.key.getD "") == marketKey) with
    | none => consideredDecimals marketKey c rest
    | some mk =>
      match pickOutcome marketKey mk.outcomes c with
      | none => consideredDecimals marketKey c rest
      | some o =>
        if jsLooseEqNull o.price then consideredDecimals marketKey c rest
        else (fromAmerican o.price).decimal :: consideredDecimals marketKey c rest

/-- The decimal carried by an optional best record, as a list. -/
def accDecs : Option Best → List (Option ℚ)
  | none => []
  | some b => [b.decimal]

/-- All decimal values in play for a request: the seed conversion (if
any) followed by the conversions of the considered scanned prices. -/
def c1Candidates (cfg : Config) (a : FetchArgs) (up : Upstream) : List (Option ℚ) :=
  accDecs (seedBest a.line) ++
    (if canFetch cfg a then
      match up with
      | .exn => []
      | .notOk => []
      | .ok events =>
        match selectEvent (jsToLower (a.team.getD "")) events with
        | none => []
        | some ev =>
          match ev.bookmakers with
          | none => []
          | some bs => consideredDecimals (normalizeMarket a.market) (critOf a) bs
    else [])

/-! ### Basic lemmas about the value model -/

/-- The decimal-slot comparison agrees with the numeric order after
coercing the empty string to `0`. -/
theorem jsGT_eq (x y : Option ℚ) : jsGT x y = decide (toQ y < toQ x) := by
  cases x <;> cases y <;> simp [jsGT, toQ]

theorem jsGT_self (x : Option ℚ) : jsGT x x = false := by
  simp [jsGT_eq]

theorem jsToFixed_nonneg (d : ℕ) (x : ℚ) (hx : 0 ≤ x) : 0 ≤ jsToFixed d x := by
  unfold jsToFixed
  apply div_nonneg _ (by positivity)
  have h : (0 : ℤ) ≤ ⌊x * (10 : ℚ) ^ d + 1 / 2⌋ := Int.le_floor.2 (by positivity)
  exact_mod_cast h

/-- Every decimal value `fromAmerican` produces is non-negative (it is
either the empty string, coerced to `0`, or a rounded value above 1). -/
theorem fromAmerican_decimal_nonneg (v : JsVal) : 0 ≤ toQ (fromAmerican v).decimal := by
  unfold fromAmerican
  cases hv : jsToNumber v with
  | none => simp [toQ]
  | some n =>
    by_cases hn : n = 0
    · simp [hn, toQ]
    · simp only [hn, if_false, toQ]
      apply jsToFixed_nonneg
      by_cases hpos : 0 < n
      · have : 0 ≤ n / 100 := by positivity
        simp only [hpos, if_true]
        linarith
      · have : 0 ≤ 100 / |n| := by positivity
        simp only [hpos, if_false]
        linarith

/-! ### Characters and lower-casing -/

theorem char_toNat_ofNat {n : ℕ} (h : n.isValidChar) : (Char.ofNat n).toNat = n := by
  unfold Char.ofNat
  rw [dif_pos h]
  rfl

/-- The basic-latin lower-casing never produces an upper-case ASCII
letter. -/
theorem toLower_not_upper (c : Char) :
    ¬(65 ≤ (Char.toLower c).toNat ∧ (Char.toLower c).toNat ≤ 90) := by
  simp only [Char.toLower]
  split
  · next h =>
    rw [char_toNat_ofNat (Or.inl (by omega))]
    omega
  · next h => omega

/-- The only characters whose basic-latin lower-casing is `u` are `u`
and `U`. -/
theorem toLower_eq_u_iff (c : Char) : Char.toLower c = 'u' ↔ c = 'u' ∨ c = 'U' := by
  constructor
  · intro h
    simp only [Char.toLower] at h
    split at h
    · next hc =>
      have h2 := congrArg Char.toNat h
      rw [char_toNat_ofNat (Or.inl (by omega))] at h2
      have hc85 : c.toNat = 85 := by
        have : Char.toNat 'u' = 117 := by decide
        omega
      right
      have hrw := (Char.ofNat_toNat c).symm
      rw [hc85] at hrw
      rw [hrw]
    · next hc => exact Or.inl h
  · rintro (rfl | rfl) <;> decide

theorem jsToLower_data (s : String) : (jsToLower s).data = s.data.map Char.toLower := rfl

/-! ### The nearest-point loop -/

/-- Full characterisation of a run of `nearLoop w l acc`: either the
result is the unchanged accumulator and no later element improves on it,
or it is a first-encountered minimiser of `|point - w|` among the
elements of `l` with a finite point, strictly better than the incoming
accumulator. -/
def nearGood (w : ℚ) (l : List Outcome) (acc res : Option (Outcome × ℚ)) : Prop :=
  (res = none → acc = none ∧ ∀ x ∈ l, jsToNumber x.point = none) ∧
  (∀ o d, res = some (o, d) →
    (acc = some (o, d) ∧ ∀ x ∈ l, ∀ px, jsToNumber x.point = some px → d ≤ |px - w|) ∨
    (∃ p, jsToNumber o.point = some p ∧ d = |p - w| ∧
      (∀ b bd, acc = some (b, bd) → d < bd) ∧
      ∃ l1 l2, l = l1 ++ o :: l2 ∧
        (∀ x ∈ l1, ∀ px, jsToNumber x.point = some px → d < |px - w|) ∧
        (∀ x ∈ l2, ∀ px, jsToNumber x.point = some px → d ≤ |px - w|)))

theorem nearLoop_good (w : ℚ) :
    ∀ (l : List Outcome) (acc : Option (Outcome × ℚ)), nearGood w l acc (nearLoop w l acc) := by
  intro l
  induction l with
  | nil =>
    intro acc
    refine ⟨fun h => ⟨by simpa [nearLoop] using h, by simp⟩, fun o d h => ?_⟩
    left
    exact ⟨by simpa [nearLoop] using h, by simp⟩
  | cons x rest ih =>
    intro acc
    rcases hp : jsToNumber x.point with _ | p
    · have H := ih acc
      simp only [nearLoop, hp]
      refine ⟨fun h => ?_, fun o d h => ?_⟩
      · obtain ⟨ha, hall⟩ := H.1 h
        refine ⟨ha, fun y hy => ?_⟩
        rcases List.mem_cons.1 hy with rfl | hy
        · exact hp
        · exact hall y hy
      · rcases H.2 o d h with ⟨ha, hall⟩ | ⟨p', hp', hd, hstrict, l1, l2, hsplit, hl1, hl2⟩
        · left
          refine ⟨ha, fun y hy py hpy => ?_⟩
          rcases List.mem_cons.1 hy with rfl | hy
          · rw [hp] at hpy; cases hpy
          · exact hall y hy py hpy
        · right
          refine ⟨p', hp', hd, hstrict, x :: l1, l2, by rw [hsplit]; rfl, ?_, hl2⟩
          intro y hy py hpy
          rcases List.mem_cons.1 hy with rfl | hy
          · rw [hp] at hpy; cases hpy
          · exact hl1 y hy py hpy
    · rcases acc with _ | ⟨b, bd⟩
      · have H := ih (some (x, |p - w|))
        simp only [nearLoop, hp]
        refine ⟨fun h => ?_, fun o d h => ?_⟩
        · obtain ⟨ha, _⟩ := H.1 h
          cases ha
        · rcases H.2 o d h with ⟨ha, hall⟩ | ⟨p', hp', hd, hstrict, l1, l2, hsplit, hl1, hl2⟩
          · obtain ⟨rfl, rfl⟩ : x = o ∧ |p - w| = d := by
              simpa using ha
            right
            refine ⟨p, hp, rfl, ?_, [], rest, rfl, by simp, hall⟩
            intro b' bd' hacc
            exact Option.noConfusion hacc
          · right
            have hdx : d < |p - w| := hstrict x (|p - w|) rfl
            refine ⟨p', hp', hd, ?_, x :: l1, l2, by rw [hsplit]; rfl, ?_, hl2⟩
            · intro b' bd' hacc
              exact Option.noConfusion hacc
            intro y hy py hpy
            rcases List.mem_cons.1 hy with rfl | hy
            · rw [hp] at hpy
              cases hpy
              exact hdx
            · exact hl1 y hy py hpy
      · by_cases hlt : |p - w| < bd
        · have H := ih (some (x, |p - w|))
          simp only [nearLoop, hp, if_pos hlt]
          refine ⟨fun h => ?_, fun o d h => ?_⟩
          · obtain ⟨ha, _⟩ := H.1 h
            cases ha
          · rcases H.2 o d h with ⟨ha, hall⟩ | ⟨p', hp', hd, hstrict, l1, l2, hsplit, hl1, hl2⟩
            · obtain ⟨rfl, rfl⟩ : x = o ∧ |p - w| = d := by
                simpa using ha
              right
              refine ⟨p, hp, rfl, ?_, [], rest, rfl, by simp, hall⟩
              intro b' bd' hacc
              obtain ⟨rfl, rfl⟩ : b = b' ∧ bd = bd' := by simpa using hacc
              exact hlt
            · right
              have hdx : d < |p - w| := hstrict x (|p - w|) rfl
              refine ⟨p', hp', hd, ?_, x :: l1, l2, by rw [hsplit]; rfl, ?_, hl2⟩
              · intro b' bd' hacc
                obtain ⟨rfl, rfl⟩ : b = b' ∧ bd = bd' := by simpa using hacc
                exact lt_trans hdx hlt
              · intro y hy py hpy
                rcases List.mem_cons.1 hy with rfl | hy
                · rw [hp] at hpy
                  cases hpy
                  exact hdx
                · exact hl1 y hy py hpy
        · have H := ih (some (b, bd))
          simp only [nearLoop, hp, if_neg hlt]
          refine ⟨fun h => ?_, fun o d h => ?_⟩
          · obtain ⟨ha, _⟩ := H.1 h
            cases ha
          · rcases H.2 o d h with ⟨ha, hall⟩ | ⟨p', hp', hd, hstrict, l1, l2, hsplit, hl1, hl2⟩
            · obtain ⟨rfl, rfl⟩ : b = o ∧ bd = d := by simpa using ha
              left
              refine ⟨rfl, fun y hy py hpy => ?_⟩
              rcases List.mem_cons.1 hy with rfl | hy
              · rw [hp] at hpy
                cases hpy
                exact le_of_not_lt hlt
              · exact hall y hy py hpy
            · have hdb : d < bd := hstrict b bd rfl
              right
              refine ⟨p', hp', hd, hstrict, x :: l1, l2, by rw [hsplit]; rfl, ?_, hl2⟩
              intro y hy py hpy
              rcases List.mem_cons.1 hy with rfl | hy
              · rw [hp] at hpy
                cases hpy
                exact lt_of_lt_of_le hdb (le_of_not_lt hlt)
              · exact hl1 y hy py hpy

/-- Whatever `nearestByPoint` returns is one of the filtered outcomes. -/
theorem nearestByPoint_mem (arr : List Outcome) (want : JsVal) (o : Outcome)
    (h : nearestByPoint arr want = some o) : o ∈ arr := by
  cases arr with
  | nil => simp [nearestByPoint] at h
  | cons a t =>
    simp only [nearestByPoint] at h
    by_cases hn : jsLooseEqNull want
    · rw [if_pos hn] at h
      cases h
      exact List.mem_cons_self _ _
    · rw [if_neg hn] at h
      cases want with
      | num w =>
        rcases hres : nearLoop w (a :: t) none with _ | ⟨b, d⟩ <;> simp only [hres] at h
        · cases h
          exact List.mem_cons_self _ _
        · cases h
          have H := (nearLoop_good w (a :: t) none).2 o d hres
          rcases H with ⟨ha, _⟩ | ⟨p, _, _, _, l1, l2, hsplit, _, _⟩
          · cases ha
          · rw [hsplit]
            exact List.mem_append.2 (Or.inr (List.mem_cons_self _ _))
      | undef => exact absurd (by decide) hn
      | null => exact absurd (by decide) hn
      | nan =>
        have h2 : some a = some o := h
        cases h2
        exact List.mem_cons_self _ _
      | inf =>
        have h2 : some a = some o := h
        cases h2
        exact List.mem_cons_self _ _
      | ninf =>
        have h2 : some a = some o := h
        cases h2
        exact List.mem_cons_self _ _
      | emptyStr =>
        have h2 : some a = some o := h
        cases h2
        exact List.mem_cons_self _ _
      | numStr q =>
        have h2 : some a = some o := h
        cases h2
        exact List.mem_cons_self _ _
      | nanStr =>
        have h2 : some a = some o := h
        cases h2
        exact List.mem_cons_self _ _

/-- A singleton candidate list is trivially maximised by its element. -/
theorem singleton_max (x : Option ℚ) : x ∈ [x] ∧ ∀ d ∈ [x], jsGT d x = false := by
  refine ⟨List.mem_singleton_self x, ?_⟩
  intro d hd
  rw [List.mem_singleton] at hd
  subst hd
  exact jsGT_self d

/-- The bookmaker scan always ends with a best record whose decimal is a
maximum (in the JavaScript comparison order) of the incoming
accumulator's decimal and all considered conversions. -/
theorem scanBooks_max (mkKey : String) (c : Criteria) :
    ∀ (bs : List (Option Bookmaker)) (acc : Option Best) (r : Best),
      scanBooks mkKey c bs acc = some r →
      r.decimal ∈ accDecs acc ++ consideredDecimals mkKey c bs ∧
        ∀ d ∈ accDecs acc ++ consideredDecimals mkKey c bs, jsGT d r.decimal = false := by
  intro bs
  induction bs with
  | nil =>
    intro acc r h
    simp only [scanBooks] at h
    subst h
    simpa [accDecs, consideredDecimals] using singleton_max r.decimal
  | cons ob rest ih =>
    intro acc r h
    cases ob with
    | none =>
      simp only [scanBooks] at h
      subst h
      simpa [accDecs, consideredDecimals] using singleton_max r.decimal
    | some b =>
      simp only [scanBooks] at h
      rcases hfind : b.markets.find? (fun m => jsToLower (m.key.getD "") == mkKey) with _ | ment
      · rw [show stepBook mkKey c b acc = acc from by simp [stepBook, hfind]] at h
        rw [show consideredDecimals mkKey c (some b :: rest) =
          consideredDecimals mkKey c rest from by simp [consideredDecimals, hfind]]
        exact ih acc r h
      · rcases hpick : pickOutcome mkKey ment.outcomes c with _ | o
        · rw [show stepBook mkKey c b acc = acc from by simp [stepBook, hfind, hpick]] at h
          rw [show consideredDecimals mkKey c (some b :: rest) =
            consideredDecimals mkKey c rest from by simp [consideredDecimals, hfind, hpick]]
          exact ih acc r h
        · by_cases hnull : jsLooseEqNull o.price
          · rw [show stepBook mkKey c b acc = acc from by
              simp [stepBook, hfind, hpick, hnull]] at h
            rw [show consideredDecimals mkKey c (some b :: rest) =
              consideredDecimals mkKey c rest from by simp [consideredDecimals, hfind, hpick, hnull]]
            exact ih acc r h
          · rw [show consideredDecimals mkKey c (some b :: rest) =
              (fromAmerican o.price).decimal :: consideredDecimals mkKey c rest from by
              simp [consideredDecimals, hfind, hpick, hnull]]
            cases acc with
            | none =>
              rw [show stepBook mkKey c b none =
                some ⟨b.key, o.price, (fromAmerican o.price).decimal,
                  (fromAmerican o.price).impliedPct, o.point⟩ from by
                simp [stepBook, hfind, hpick, hnull]] at h
              have H := ih _ r h
              simpa [accDecs] using H
            | some cur =>
              by_cases hgt : jsGT (fromAmerican o.price).decimal cur.decimal
              · rw [show stepBook mkKey c b (some cur) =
                  some ⟨b.key, o.price, (fromAmerican o.price).decimal,
                    (fromAmerican o.price).impliedPct, o.point⟩ from by
                  simp [stepBook, hfind, hpick, hnull, hgt]] at h
                obtain ⟨hmem, hall⟩ := ih _ r h
                simp only [accDecs, List.singleton_append] at hmem hall ⊢
                constructor
                · exact List.mem_cons.2 (Or.inr hmem)
                · intro d hd
                  rcases List.mem_cons.1 hd with rfl | hd2
                  · have h1 : jsGT (fromAmerican o.price).decimal r.decimal = false :=
                      hall _ (List.mem_cons_self _ _)
                    rw [jsGT_eq] at h1 hgt ⊢
                    simp only [decide_eq_false_iff_not, decide_eq_true_eq, not_lt] at h1 hgt ⊢
                    linarith
                  · exact hall d hd2
              · rw [show stepBook mkKey c b (some cur) = some cur from by
                  simp [stepBook, hfind, hpick, hnull, hgt]] at h
                obtain ⟨hmem, hall⟩ := ih _ r h
                simp only [accDecs, List.singleton_append] at hmem hall ⊢
                constructor
                · rcases List.mem_cons.1 hmem with h1 | hd2
                  · rw [h1]
                    exact List.mem_cons_self _ _
                  · exact List.mem_cons.2 (Or.inr (List.mem_cons.2 (Or.inr hd2)))
                · intro d hd
                  rcases List.mem_cons.1 hd with rfl | hd2
                  · exact hall _ (List.mem_cons_self _ _)
                  · rcases List.mem_cons.1 hd2 with rfl | hd3
                    · have h1 : jsGT cur.decimal r.decimal = false :=
                        hall _ (List.mem_cons_self _ _)
                      rw [jsGT_eq] at h1 hgt ⊢
                      simp only [decide_eq_false_iff_not, decide_eq_true_eq, not_lt] at h1 hgt ⊢
                      linarith
                    · exact hall d (List.mem_cons.2 (Or.inr hd3))

/-- The output record, when present, carries exactly the best record's
decimal. -/
theorem buildOut_decimal (mkKey : String) (ob : Option Best) (r : OutRec)
    (h : buildOut mkKey ob = some r) : ∃ b, ob = some b ∧ r.decimal = b.decimal := by
  cases ob with
  | none => simp [buildOut] at h
  | some b =>
    refine ⟨b, rfl, ?_⟩
    simp only [buildOut] at h
    cases h
    rfl

/-- Building the output straight from the seed gives the seeded record
(no book, no point) when the line is truthy, else the empty mapping. -/
theorem buildOut_seed (mkKey : String) (line : JsVal) :
    buildOut mkKey (seedBest line) =
      (if jsTruthy line then
        some ⟨none, line, (fromAmerican line).decimal, (fromAmerican line).impliedPct, none⟩
      else none) := by
  unfold seedBest
  by_cases h : jsTruthy line
  · rw [if_pos h, if_pos h]
    simp [buildOut, jsLooseEqNull]
  · rw [if_neg h, if_neg h]
    rfl

/-- Characters coming out of `jsToLower` are never upper-case ASCII. -/
theorem jsToLower_no_upper (s : String) :
    ∀ ch ∈ (jsToLower s).data, ¬(65 ≤ ch.toNat ∧ ch.toNat ≤ 90) := by
  intro ch hch
  rw [jsToLower_data] at hch
  obtain ⟨c, _, rfl⟩ := List.mem_map.1 hch
  exact toLower_not_upper c

/-- C3: `fromAmerican` yields empty decimal and empty implied percentage
exactly when the numeric coercion of its input is non-finite or zero;
otherwise it returns the rounded decimal `1 + v/100` (positive) or
`1 + 100/|v|` (negative) and the implied percentage `100·(100/(v+100))`
(positive) or `100·(|v|/(|v|+100))` (negative); in particular
`fromAmerican 150 = (2.5, 40)` and `fromAmerican (-150) = (1.6667, 60)`. -/
theorem spec_C3_fromAmerican (v : JsVal) :
    (((fromAmerican v).decimal = none ∧ (fromAmerican v).impliedPct = none) ↔
      (jsToNumber v = none ∨ jsToNumber v = some 0)) ∧
    (∀ n : ℚ, jsToNumber v = some n → n ≠ 0 →
      fromAmerican v =
        ⟨some (jsToFixed 4 (if 0 < n then 1 + n / 100 else 1 + 100 / |n|)),
         some (jsToFixed 2 (100 * (if 0 < n then 100 / (n + 100) else |n| / (|n| + 100))))⟩) ∧
    fromAmerican (.num 150) = ⟨some (5 / 2), some 40⟩ ∧
    fromAmerican (.num (-150)) = ⟨some (16667 / 10000), some 60⟩ := by
  refine ⟨?_, ?_, ?_, ?_⟩
  · unfold fromAmerican
    cases hv : jsToNumber v with
    | none => simp
    | some n =>
      by_cases hn : n = 0
      · simp [hn]
      · simp [hn]
  · intro n hv hn
    simp only [fromAmerican, hv]
    rw [if_neg hn]
    rw [mul_comm (if 0 < n then 100 / (n + 100) else |n| / (|n| + 100)) (100 : ℚ)]
  · norm_num [fromAmerican, jsToNumber, jsNumberFn, jsToFixed]
  · norm_num [fromAmerican, jsToNumber, jsNumberFn, jsToFixed]

/-- Witness for C3 at a concrete non-finite input and a concrete finite
input. -/
theorem spec_C3_fromAmerican_witness :
    ((((fromAmerican .nanStr).decimal = none ∧ (fromAmerican .nanStr).impliedPct = none) ↔
      (jsToNumber .nanStr = none ∨ jsToNumber .nanStr = some 0)) ∧
     jsToNumber (.num 150) = some 150 ∧ (150 : ℚ) ≠ 0 ∧
     fromAmerican (.num 150) =
       ⟨some (jsToFixed 4 (if 0 < (150 : ℚ) then 1 + 150 / 100 else 1 + 100 / |(150 : ℚ)|)),
        some (jsToFixed 2 (100 * (if 0 < (150 : ℚ) then 100 / (150 + 100)
          else |(150 : ℚ)| / (|(150 : ℚ)| + 100))))⟩) := by
  refine ⟨(spec_C3_fromAmerican .nanStr).1, rfl, by norm_num, ?_⟩
  exact (spec_C3_fromAmerican (.num 150)).2.1 150 rfl (by norm_num)

/-- C9: `normalizeMarket` is a case-insensitive classification onto the
three canonical market keys, defaulting empty and missing input to
`h2h`; in particular `ML ↦ h2h`, `Spreads ↦ spreads`, `o/u ↦ totals`. -/
theorem spec_C9_normalizeMarket (m : Option String) :
    (jsToLower (m.getD "") ∈ ["ml", "moneyline", "h2h"] → normalizeMarket m = "h2h") ∧
    (jsToLower (m.getD "") ∈ ["spread", "spreads", "ats"] → normalizeMarket m = "spreads") ∧
    (jsToLower (m.getD "") ∈ ["total", "totals", "o/u", "ou"] → normalizeMarket m = "totals") ∧
    ((m = none ∨ m = some "") → normalizeMarket m = "h2h") ∧
    normalizeMarket (some "ML") = "h2h" ∧
    normalizeMarket (some "Spreads") = "spreads" ∧
    normalizeMarket (some "o/u") = "totals" := by
  refine ⟨?_, ?_, ?_, ?_, by decide, by decide, by decide⟩
  · intro h
    simp only [List.mem_cons, List.not_mem_nil, or_false] at h
    unfold normalizeMarket
    rcases h with h | h | h <;> rw [h] <;> decide
  · intro h
    simp only [List.mem_cons, List.not_mem_nil, or_false] at h
    unfold normalizeMarket
    rcases h with h | h | h <;> rw [h] <;> decide
  · intro h
    simp only [List.mem_cons, List.not_mem_nil, or_false] at h
    unfold normalizeMarket
    rcases h with h | h | h | h <;> rw [h] <;> decide
  · rintro (rfl | rfl) <;> decide

/-- Witness for C9 at the concrete inputs named by the claim. -/
theorem spec_C9_normalizeMarket_witness :
    normalizeMarket (some "ML") = "h2h" ∧
    normalizeMarket (some "Spreads") = "spreads" ∧
    normalizeMarket (some "o/u") = "totals" ∧
    normalizeMarket none = "h2h" := by
  refine ⟨(spec_C9_normalizeMarket (some "ML")).1 (by decide),
    (spec_C9_normalizeMarket (some "Spreads")).2.1 (by decide),
    (spec_C9_normalizeMarket (some "o/u")).2.2.1 (by decide),
    (spec_C9_normalizeMarket none).2.2.2.1 (Or.inl rfl)⟩

/-- C10: every unrecognized non-empty market string is passed through
lower-cased (neither unchanged nor defaulted), and every value
`normalizeMarket` returns contains no upper-case ASCII letter. -/
theorem spec_C10_normalizeMarket_pass_lower (m : Option String) :
    ((jsToLower (m.getD "") ∉ ["ml", "moneyline", "h2h", "spread", "spreads", "ats",
        "total", "totals", "o/u", "ou"] ∧ jsToLower (m.getD "") ≠ "") →
      normalizeMarket m = jsToLower (m.getD "")) ∧
    ∀ ch ∈ (normalizeMarket m).data, ¬(65 ≤ ch.toNat ∧ ch.toNat ≤ 90) := by
  constructor
  · rintro ⟨hnot, hne⟩
    simp only [List.mem_cons, List.not_mem_nil, or_false, not_or] at hnot
    obtain ⟨h1, h2, h3, h4, h5, h6, h7, h8, h9, h10⟩ := hnot
    unfold normalizeMarket normalizeMarketKey
    rw [if_neg (by tauto), if_neg (by tauto), if_neg (by tauto), if_neg hne]
  · unfold normalizeMarket normalizeMarketKey
    split
    · decide
    · split
      · decide
      · split
        · decide
        · split
          · decide
          · exact jsToLower_no_upper _

/-- Witness for C10 at a concrete mixed-case unrecognized market string. -/
theorem spec_C10_normalizeMarket_pass_lower_witness :
    ((jsToLower ((some "FooBar").getD "") ∉ ["ml", "moneyline", "h2h", "spread", "spreads",
        "ats", "total", "totals", "o/u", "ou"] ∧ jsToLower ((some "FooBar").getD "") ≠ "") ∧
      normalizeMarket (some "FooBar") = jsToLower ((some "FooBar").getD "")) ∧
      ∀ ch ∈ (normalizeMarket (some "FooBar")).data, ¬(65 ≤ ch.toNat ∧ ch.toNat ≤ 90) :=
  ⟨⟨by decide, (spec_C10_normalizeMarket_pass_lower (some "FooBar")).1 (by decide)⟩,
    (spec_C10_normalizeMarket_pass_lower (some "FooBar")).2⟩

/-- C8: when the upstream response parses to an empty event list, the
scan is skipped but a truthy caller-provided line still yields the
seeded best-price record rather than an empty result. -/
theorem spec_C8_empty_events_honor_seed (cfg : Config) (a : FetchArgs)
    (hline : jsTruthy a.line = true) :
    fetchOddsAndNormalize cfg a (.ok []) =
      some ⟨none, a.line, (fromAmerican a.line).decimal, (fromAmerican a.line).impliedPct,
        none⟩ := by
  have hsel : selectEvent (jsToLower (a.team.getD "")) ([] : List Event) = none := by
    unfold selectEvent
    by_cases h : jsToLower (a.team.getD "") ≠ ""
    · rw [if_pos h]
      simp [List.find?]
    · rw [if_neg h]
      simp
  simp only [fetchOddsAndNormalize, hsel]
  by_cases hcf : canFetch cfg a
  · rw [if_pos hcf, buildOut_seed, if_pos hline]
  · rw [if_neg hcf, buildOut_seed, if_pos hline]

/-- Witness for C8: no API key, line 120 seeds decimal 2.2 and implied
45.45 percent, kept even though the event list is empty. -/
theorem spec_C8_empty_events_honor_seed_witness :
    fetchOddsAndNormalize ⟨"https://api.the-odds-api.com", ""⟩
      ⟨some "americanfootball_nfl", none, none, none, .null, .null, [], .numStr 120⟩
      (.ok []) =
      some ⟨none, .numStr 120, (fromAmerican (.numStr 120)).decimal,
        (fromAmerican (.numStr 120)).impliedPct, none⟩ :=
  spec_C8_empty_events_honor_seed _ _ (by decide)

/-- C6: for the totals market every outcome that `pickOutcome` selects is
named (case-insensitively) by the normalized side: "under" exactly when
the side string starts with `u` or `U`, "over" for every other side
value including a missing one. -/
theorem spec_C6_totals_side (outs : List Outcome) (c : Criteria) :
    (∀ o : Outcome, pickOutcome "totals" (some outs) c = some o →
      outName o = (if strStartsWithU (jsToLower (c.side.getD "")) then "under" else "over")) ∧
    (strStartsWithU (jsToLower (c.side.getD "")) = true ↔
      ∃ s t, c.side = some s ∧ (s.data = 'u' :: t ∨ s.data = 'U' :: t)) := by
  constructor
  · intro o h
    simp only [pickOutcome] at h
    by_cases he : outs.isEmpty
    · rw [if_pos he] at h
      exact absurd h (by simp)
    · rw [if_neg he, if_neg (by decide : ¬("totals" = "h2h")),
        if_neg (by decide : ¬("totals" = "spreads")), if_pos True.intro] at h
      have hm := nearestByPoint_mem _ _ _ h
      have hf := (List.mem_filter.1 hm).2
      simp only [totalsFlt, wantedSide, beq_iff_eq] at hf
      exact hf
  · constructor
    · intro hs
      rcases hside : c.side with _ | s
      · rw [hside] at hs
        exact absurd hs (by decide)
      · rw [hside] at hs
        rcases hd : s.data with _ | ⟨ch, tl⟩
        · exfalso
          unfold strStartsWithU at hs
          rw [jsToLower_data, Option.getD_some, hd] at hs
          exact absurd hs (by decide)
        · refine ⟨s, tl, rfl, ?_⟩
          unfold strStartsWithU at hs
          rw [jsToLower_data, Option.getD_some, hd] at hs
          simp only [List.map_cons, beq_iff_eq] at hs
          rcases (toLower_eq_u_iff ch).1 hs with rfl | rfl
          · exact Or.inl hd
          · exact Or.inr hd
    · rintro ⟨s, t, hside, h⟩
      rw [hside]
      unfold strStartsWithU
      rw [jsToLower_data, Option.getD_some]
      rcases h with h | h <;> rw [h] <;> simp only [List.map_cons] <;> decide


/-- For a non-empty outcomes array the spreads branch of `pickOutcome`
is the nearest-point search over the team-filtered outcomes. -/
theorem pickOutcome_spreads_eq (outs : List Outcome) (c : Criteria)
    (h : ¬outs.isEmpty = true) :
    pickOutcome "spreads" (some outs) c =
      nearestByPoint (outs.filter (spreadFlt c)) (jsNumberFn c.spreadPoint) := by
  simp only [pickOutcome]
  rw [if_neg h, if_neg (by decide : ¬("spreads" = "h2h")), if_pos True.intro]

/-- For a non-empty outcomes array the totals branch of `pickOutcome`
is the nearest-point search over the side-filtered outcomes. -/
theorem pickOutcome_totals_eq (outs : List Outcome) (c : Criteria)
    (h : ¬outs.isEmpty = true) :
    pickOutcome "totals" (some outs) c =
      nearestByPoint (outs.filter (totalsFlt c)) (jsNumberFn c.totalPoint) := by
  simp only [pickOutcome]
  rw [if_neg h, if_neg (by decide : ¬("totals" = "h2h")),
    if_neg (by decide : ¬("totals" = "spreads")), if_pos True.intro]

/-- Witness for C6 at the totals example of the specification. -/
theorem spec_C6_totals_side_witness :
    (pickOutcome "totals"
        (some [⟨some "Over", .num (93 / 2), .num (-108)⟩,
          ⟨some "Under", .num (93 / 2), .num (-112)⟩])
        ⟨none, some "under", .null, .num (93 / 2)⟩ =
      some ⟨some "Under", .num (93 / 2), .num (-112)⟩ ∧
      outName ⟨some "Under", .num (93 / 2), .num (-112)⟩ =
        (if strStartsWithU (jsToLower ((some "under" : Option String).getD ""))
          then "under" else "over")) ∧
    (strStartsWithU (jsToLower ((some "under" : Option String).getD "")) = true ↔
      ∃ s t, (some "under" : Option String) = some s ∧
        (s.data = 'u' :: t ∨ s.data = 'U' :: t)) := by
  have heval : pickOutcome "totals"
      (some [⟨some "Over", .num (93 / 2), .num (-108)⟩,
        ⟨some "Under", .num (93 / 2), .num (-112)⟩])
      ⟨none, some "under", .null, .num (93 / 2)⟩ =
      some ⟨some "Under", .num (93 / 2), .num (-112)⟩ := by
    rw [pickOutcome_totals_eq _ _ (by decide)]
    have hfil : List.filter
        (totalsFlt ⟨none, some "under", .null, .num (93 / 2)⟩)
        [(⟨some "Over", .num (93 / 2), .num (-108)⟩ : Outcome),
          ⟨some "Under", .num (93 / 2), .num (-112)⟩] =
        [⟨some "Under", .num (93 / 2), .num (-112)⟩] := by
      simp only [List.filter,
        show totalsFlt ⟨none, some "under", .null, .num (93 / 2)⟩
          ⟨some "Over", .num (93 / 2), .num (-108)⟩ = false from by decide,
        show totalsFlt ⟨none, some "under", .null, .num (93 / 2)⟩
          ⟨some "Under", .num (93 / 2), .num (-112)⟩ = true from by decide]
    rw [hfil]
    simp only [nearestByPoint, jsLooseEqNull, nearLoop, jsToNumber, jsNumberFn]
    rw [if_neg (by decide : ¬(false = true))]
  exact ⟨⟨heval,
    (spec_C6_totals_side _ ⟨none, some "under", .null, .num (93 / 2)⟩).1 _ heval⟩,
    (spec_C6_totals_side [] ⟨none, some "under", .null, .num (93 / 2)⟩).2⟩

/-- For a finite numeric target, `nearestByPoint` returns a
first-encountered minimiser of the distance to the target among the
outcomes with a finite point, provided one exists. -/
theorem nearestByPoint_min (arr : List Outcome) (w : ℚ)
    (hne : ∃ x ∈ arr, jsToNumber x.point ≠ none) :
    ∃ o p l1 l2,
      nearestByPoint arr (.num w) = some o ∧
      jsToNumber o.point = some p ∧
      arr = l1 ++ o :: l2 ∧
      (∀ x ∈ arr, ∀ px, jsToNumber x.point = some px → |p - w| ≤ |px - w|) ∧
      (∀ x ∈ l1, ∀ px, jsToNumber x.point = some px → |p - w| < |px - w|) := by
  obtain ⟨x0, hx0, hfin⟩ := hne
  cases arr with
  | nil => simp at hx0
  | cons a t =>
    have hgood := nearLoop_good w (a :: t) none
    rcases hres : nearLoop w (a :: t) none with _ | ⟨b, d⟩
    · obtain ⟨_, hall⟩ := hgood.1 hres
      exact absurd (hall x0 hx0) hfin
    · rcases hgood.2 b d hres with ⟨ha, _⟩ | ⟨p, hp, hd, _, l1, l2, hsplit, hl1, hl2⟩
      · cases ha
      · subst hd
        refine ⟨b, p, l1, l2, ?_, hp, hsplit, ?_, hl1⟩
        · simp only [nearestByPoint, hres]
          rw [if_neg (show ¬jsLooseEqNull (JsVal.num w) = true by simp [jsLooseEqNull])]
        · intro x hx px hpx
          rw [hsplit] at hx
          rcases List.mem_append.1 hx with hx | hx
          · exact le_of_lt (hl1 x hx px hpx)
          · rcases List.mem_cons.1 hx with rfl | hx
            · rw [hp] at hpx
              cases hpx
              rfl
            · exact hl2 x hx px hpx

/-- C4: for the spreads market (and identically for totals), when the
requested point criterion is a finite number and some name-filtered
outcome has a finite point, `pickOutcome` returns an outcome with a
finite point whose distance to the requested point is minimal, and every
earlier filtered outcome with a finite point has a strictly larger
distance (first-encountered tie-breaking). -/
theorem spec_C4_nearest_point (outs : List Outcome) (c : Criteria) (w : ℚ) :
    (c.spreadPoint = .num w →
      (∃ x ∈ outs.filter (spreadFlt c), jsToNumber x.point ≠ none) →
      ∃ o p l1 l2,
        pickOutcome "spreads" (some outs) c = some o ∧
        jsToNumber o.point = some p ∧
        outs.filter (spreadFlt c) = l1 ++ o :: l2 ∧
        (∀ x ∈ outs.filter (spreadFlt c), ∀ px, jsToNumber x.point = some px →
          |p - w| ≤ |px - w|) ∧
        (∀ x ∈ l1, ∀ px, jsToNumber x.point = some px → |p - w| < |px - w|)) ∧
    (c.totalPoint = .num w →
      (∃ x ∈ outs.filter (totalsFlt c), jsToNumber x.point ≠ none) →
      ∃ o p l1 l2,
        pickOutcome "totals" (some outs) c = some o ∧
        jsToNumber o.point = some p ∧
        outs.filter (totalsFlt c) = l1 ++ o :: l2 ∧
        (∀ x ∈ outs.filter (totalsFlt c), ∀ px, jsToNumber x.point = some px →
          |p - w| ≤ |px - w|) ∧
        (∀ x ∈ l1, ∀ px, jsToNumber x.point = some px → |p - w| < |px - w|)) := by
  constructor
  · intro hw hne
    have hnonempty : ¬outs.isEmpty = true := by
      obtain ⟨x, hx, _⟩ := hne
      have := (List.mem_filter.1 hx).1
      cases outs with
      | nil => cases this
      | cons _ _ => simp
    rw [pickOutcome_spreads_eq _ _ hnonempty, hw]
    exact nearestByPoint_min _ w hne
  · intro hw hne
    have hnonempty : ¬outs.isEmpty = true := by
      obtain ⟨x, hx, _⟩ := hne
      have := (List.mem_filter.1 hx).1
      cases outs with
      | nil => cases this
      | cons _ _ => simp
    rw [pickOutcome_totals_eq _ _ hnonempty, hw]
    exact nearestByPoint_min _ w hne

/-- Witness for C4 at the example of the specification: outcomes at
points -3 and -2.5 with requested spread point -2.7. -/
theorem spec_C4_nearest_point_witness :
    ((⟨some "A", none, .num (-27 / 10), .null⟩ : Criteria).spreadPoint = .num (-27 / 10) ∧
      (∃ x ∈ (([⟨some "A", .num (-3), .num (-110)⟩,
          ⟨some "A", .num (-5 / 2), .num (-105)⟩] : List Outcome)).filter
          (spreadFlt ⟨some "A", none, .num (-27 / 10), .null⟩),
        jsToNumber x.point ≠ none)) ∧
    (∃ o p l1 l2,
      pickOutcome "spreads"
        (some [⟨some "A", .num (-3), .num (-110)⟩, ⟨some "A", .num (-5 / 2), .num (-105)⟩])
        ⟨some "A", none, .num (-27 / 10), .null⟩ = some o ∧
      jsToNumber o.point = some p ∧
      ([⟨some "A", .num (-3), .num (-110)⟩,
        ⟨some "A", .num (-5 / 2), .num (-105)⟩] : List Outcome).filter
        (spreadFlt ⟨some "A", none, .num (-27 / 10), .null⟩) = l1 ++ o :: l2 ∧
      (∀ x ∈ ([⟨some "A", .num (-3), .num (-110)⟩,
          ⟨some "A", .num (-5 / 2), .num (-105)⟩] : List Outcome).filter
          (spreadFlt ⟨some "A", none, .num (-27 / 10), .null⟩),
        ∀ px, jsToNumber x.point = some px → |p - (-27 / 10)| ≤ |px - (-27 / 10)|) ∧
      (∀ x ∈ l1, ∀ px, jsToNumber x.point = some px →
        |p - (-27 / 10)| < |px - (-27 / 10)|)) := by
  have hex : ∃ x ∈ (([⟨some "A", .num (-3), .num (-110)⟩,
      ⟨some "A", .num (-5 / 2), .num (-105)⟩] : List Outcome)).filter
      (spreadFlt ⟨some "A", none, .num (-27 / 10), .null⟩),
      jsToNumber x.point ≠ none := by
    refine ⟨⟨some "A", .num (-3), .num (-110)⟩,
      List.mem_filter.2 ⟨List.mem_cons_self _ _, by decide⟩, ?_⟩
    intro hcon
    cases hcon
  exact ⟨⟨rfl, hex⟩,
    (spec_C4_nearest_point
      [⟨some "A", .num (-3), .num (-110)⟩, ⟨some "A", .num (-5 / 2), .num (-105)⟩]
      ⟨some "A", none, .num (-27 / 10), .null⟩ (-27 / 10)).1 rfl hex⟩

/-- C5: evaluation at the failing input.  When the HTTP layer passes a
`null` spread point (absent query parameter), `Number(null)` is `0`, the
dead `want == null` branch of `nearestByPoint` does not fire, and the
code returns the outcome whose point is closest to `0` (-2.5) instead of
the first name-filtered outcome (-3) promised by the specification. -/
theorem spec_C5_null_point_divergence :
    pickOutcome "spreads"
      (some [⟨some "A", .num (-3), .num (-110)⟩, ⟨some "A", .num (-5 / 2), .num (-105)⟩])
      ⟨some "A", none, .null, .null⟩ =
      some ⟨some "A", .num (-5 / 2), .num (-105)⟩ ∧
    (([⟨some "A", .num (-3), .num (-110)⟩,
        ⟨some "A", .num (-5 / 2), .num (-105)⟩] : List Outcome).filter
      (spreadFlt ⟨some "A", none, .null, .null⟩)).head? =
      some ⟨some "A", .num (-3), .num (-110)⟩ ∧
    jsNumberFn .null = .num 0 := by
  refine ⟨?_, ?_, rfl⟩
  · simp only [pickOutcome, List.isEmpty, spreadFlt, outName, jsToLower, jsNumberFn,
      List.filter, nearestByPoint, jsLooseEqNull, nearLoop, jsToNumber]
    norm_num [abs]
    decide
  · simp only [List.filter,
      show spreadFlt ⟨some "A", none, .null, .null⟩ ⟨some "A", .num (-3), .num (-110)⟩ =
        true from by decide,
      show spreadFlt ⟨some "A", none, .null, .null⟩ ⟨some "A", .num (-5 / 2), .num (-105)⟩ =
        true from by decide]
    rfl

/-- Unfolding of the fetch when the upstream call happens and yields an
event with a bookmakers array. -/
theorem fetch_ok_scan (cfg : Config) (a : FetchArgs) (events : List Event) (ev : Event)
    (bs : List (Option Bookmaker)) (hcf : canFetch cfg a = true)
    (hsel : selectEvent (jsToLower (a.team.getD "")) events = some ev)
    (hbm : ev.bookmakers = some bs) :
    fetchOddsAndNormalize cfg a (.ok events) =
      buildOut (normalizeMarket a.market)
        (scanBooks (normalizeMarket a.market) (critOf a) bs (seedBest a.line)) := by
  simp only [fetchOddsAndNormalize, hcf, if_true, hsel, hbm]

/-- Building the output from the bare seed realises the maximum over the
seed-only candidate list. -/
theorem seed_max_case (mkKey : String) (line : JsVal) (r : OutRec)
    (h : buildOut mkKey (seedBest line) = some r) :
    r.decimal ∈ accDecs (seedBest line) ++ ([] : List (Option ℚ)) ∧
      ∀ d ∈ accDecs (seedBest line) ++ ([] : List (Option ℚ)), jsGT d r.decimal = false := by
  obtain ⟨b, hb, hdec⟩ := buildOut_decimal _ _ _ h
  rw [hb, hdec]
  simpa [accDecs] using singleton_max b.decimal

/-- C1: whenever `fetchOddsAndNormalize` reports a best price, its
decimal is a maximum — in the code's comparison order, where the empty
conversion compares like 0 — of the seed conversion (if a line was
given) and the decimal conversions of all considered scanned bookmaker
prices; no candidate with a strictly greater decimal is ever passed
over. -/
theorem spec_C1_best_decimal_max (cfg : Config) (a : FetchArgs) (up : Upstream) (r : OutRec)
    (h : fetchOddsAndNormalize cfg a up = some r) :
    r.decimal ∈ c1Candidates cfg a up ∧
      ∀ d ∈ c1Candidates cfg a up, jsGT d r.decimal = false := by
  cases up with
  | exn =>
    simp only [fetchOddsAndNormalize] at h
    simp only [c1Candidates]
    by_cases hcf : canFetch cfg a
    · rw [if_pos hcf] at h
      rw [if_pos hcf]
      exact seed_max_case _ _ _ h
    · rw [if_neg hcf] at h
      rw [if_neg hcf]
      exact seed_max_case _ _ _ h
  | notOk =>
    simp only [fetchOddsAndNormalize] at h
    simp only [c1Candidates]
    by_cases hcf : canFetch cfg a
    · rw [if_pos hcf] at h
      rw [if_pos hcf]
      exact seed_max_case _ _ _ h
    · rw [if_neg hcf] at h
      rw [if_neg hcf]
      exact seed_max_case _ _ _ h
  | ok events =>
    simp only [fetchOddsAndNormalize] at h
    simp only [c1Candidates]
    by_cases hcf : canFetch cfg a
    · rw [if_pos hcf] at h
      rw [if_pos hcf]
      rcases hsel : selectEvent (jsToLower (a.team.getD "")) events with _ | ev
      · simp only [hsel] at h ⊢
        exact seed_max_case _ _ _ h
      · simp only [hsel] at h ⊢
        rcases hbm : ev.bookmakers with _ | bs
        · simp only [hbm] at h ⊢
          exact seed_max_case _ _ _ h
        · simp only [hbm] at h ⊢
          obtain ⟨b, hb, hdec⟩ := buildOut_decimal _ _ _ h
          rw [hdec]
          exact scanBooks_max _ _ bs (seedBest a.line) b hb
    · rw [if_neg hcf] at h
      rw [if_neg hcf]
      exact seed_max_case _ _ _ h

/-- Witness for C1: no seed, one bookmaker offering h2h at +300; the
reported decimal 4 is the maximum of the single considered conversion. -/
theorem spec_C1_best_decimal_max_witness :
    fetchOddsAndNormalize ⟨"b", "k"⟩
      ⟨some "nfl", some "h2h", none, none, .null, .null, ["dk"], .undef⟩
      (.ok [⟨some "X", some "Y",
        some [some ⟨some "dk", [⟨some "h2h", some [⟨some "T", .undef, .num 300⟩]⟩]⟩]⟩]) =
      some ⟨some "dk", .num 300, some 4, some 25, none⟩ ∧
    ((some (4 : ℚ) : Option ℚ) ∈
      c1Candidates ⟨"b", "k"⟩
        ⟨some "nfl", some "h2h", none, none, .null, .null, ["dk"], .undef⟩
        (.ok [⟨some "X", some "Y",
          some [some ⟨some "dk", [⟨some "h2h", some [⟨some "T", .undef, .num 300⟩]⟩]⟩]⟩]) ∧
      ∀ d ∈ c1Candidates ⟨"b", "k"⟩
        ⟨some "nfl", some "h2h", none, none, .null, .null, ["dk"], .undef⟩
        (.ok [⟨some "X", some "Y",
          some [some ⟨some "dk", [⟨some "h2h", some [⟨some "T", .undef, .num 300⟩]⟩]⟩]⟩]),
        jsGT d (some (4 : ℚ)) = false) := by
  have heval : fetchOddsAndNormalize ⟨"b", "k"⟩
      ⟨some "nfl", some "h2h", none, none, .null, .null, ["dk"], .undef⟩
      (.ok [⟨some "X", some "Y",
        some [some ⟨some "dk", [⟨some "h2h", some [⟨some "T", .undef, .num 300⟩]⟩]⟩]⟩]) =
      some ⟨some "dk", .num 300, some 4, some 25, none⟩ := by
    have h300 : fromAmerican (.num 300) = ⟨some 4, some 25⟩ := by
      norm_num [fromAmerican, jsToNumber, jsNumberFn, jsToFixed]
    rw [fetch_ok_scan _ _ _
      ⟨some "X", some "Y",
        some [some ⟨some "dk", [⟨some "h2h", some [⟨some "T", .undef, .num 300⟩]⟩]⟩]⟩
      [some ⟨some "dk", [⟨some "h2h", some [⟨some "T", .undef, .num 300⟩]⟩]⟩]
      (by decide) (by decide) rfl]
    simp only [scanBooks, seedBest, jsTruthy, Bool.false_eq_true, if_false, stepBook,
      show ((⟨some "dk", [⟨some "h2h", some [⟨some "T", .undef, .num 300⟩]⟩]⟩ :
          Bookmaker).markets.find?
        (fun m => jsToLower (m.key.getD "") == normalizeMarket (some "h2h"))) =
        some ⟨some "h2h", some [⟨some "T", .undef, .num 300⟩]⟩ from by decide,
      show pickOutcome (normalizeMarket (some "h2h"))
        (some [⟨some "T", .undef, .num 300⟩])
        (critOf ⟨some "nfl", some "h2h", none, none, .null, .null, ["dk"], .undef⟩) =
        some ⟨some "T", .undef, .num 300⟩ from by decide,
      h300]
    decide
  have H := spec_C1_best_decimal_max _ _ _ _ heval
  exact ⟨heval, H⟩

/-- A non-empty decimal conversion forces a finite non-zero price. -/
theorem fromAmerican_decimal_some (v : JsVal) (h : (fromAmerican v).decimal ≠ none) :
    ∃ q, jsToNumber v = some q ∧ q ≠ 0 := by
  rcases hv : jsToNumber v with _ | n
  · exfalso
    apply h
    simp only [fromAmerican, hv]
  · by_cases hn : n = 0
    · exfalso
      apply h
      simp only [fromAmerican, hv]
      rw [if_pos hn]
    · exact ⟨n, rfl, hn⟩

/-- C2 (counterexample to the claim as stated): with no seed, an outcome
whose price is a non-null, non-numeric string is considered and becomes
the reported best price, with an empty decimal conversion. -/
theorem spec_C2_counterexample :
    fetchOddsAndNormalize ⟨"b", "k"⟩
      ⟨some "nfl", some "h2h", none, none, .null, .null, ["bk"], .undef⟩
      (.ok [⟨some "X", some "Y",
        some [some ⟨some "bk", [⟨some "h2h", some [⟨some "Z", .undef, .nanStr⟩]⟩]⟩]⟩]) =
      some ⟨some "bk", .nanStr, none, none, none⟩ ∧
    jsToNumber JsVal.nanStr = none ∧ jsLooseEqNull JsVal.nanStr = false := by
  decide

/-- C2 (amended): a bookmaker's outcome can become or replace the best
price only if its market entry's lower-cased key equals the normalized
market key and its price is non-null; replacing an existing best
additionally requires the price to be a finite non-zero number, but when
no best exists yet an outcome with a non-finite (non-null) price can
still become the best. -/
theorem spec_C2_considered_amended (mkKey : String) (c : Criteria) (b : Bookmaker)
    (acc : Option Best) (hacc : ∀ cur, acc = some cur → 0 ≤ toQ cur.decimal) :
    stepBook mkKey c b acc = acc ∨
    ∃ ment o,
      b.markets.find? (fun m => jsToLower (m.key.getD "") == mkKey) = some ment ∧
      jsToLower (ment.key.getD "") = mkKey ∧
      pickOutcome mkKey ment.outcomes c = some o ∧
      jsLooseEqNull o.price = false ∧
      stepBook mkKey c b acc =
        some ⟨b.key, o.price, (fromAmerican o.price).decimal,
          (fromAmerican o.price).impliedPct, o.point⟩ ∧
      (∀ cur, acc = some cur → ∃ q, jsToNumber o.price = some q ∧ q ≠ 0) := by
  rcases hfind : b.markets.find? (fun m => jsToLower (m.key.getD "") == mkKey) with _ | ment
  · left
    simp [stepBook, hfind]
  · have hkey : jsToLower (ment.key.getD "") = mkKey := by
      have hp := List.find?_some hfind
      simpa [beq_iff_eq] using hp
    rcases hpick : pickOutcome mkKey ment.outcomes c with _ | o
    · left
      simp [stepBook, hfind, hpick]
    · by_cases hnull : jsLooseEqNull o.price
      · left
        simp [stepBook, hfind, hpick, hnull]
      · cases acc with
        | none =>
          right
          refine ⟨ment, o, hfind, hkey, hpick, by simpa using hnull, ?_, ?_⟩
          · simp [stepBook, hfind, hpick, hnull]
          · intro cur hcon
            exact Option.noConfusion hcon
        | some cur =>
          by_cases hgt : jsGT (fromAmerican o.price).decimal cur.decimal
          · right
            refine ⟨ment, o, hfind, hkey, hpick, by simpa using hnull, ?_, ?_⟩
            · simp [stepBook, hfind, hpick, hnull, hgt]
            · intro cur' hcur'
              have hc : cur = cur' := by
                injection hcur'
              subst hc
              rcases hdq : (fromAmerican o.price).decimal with _ | dq
              · exfalso
                rw [hdq, jsGT_eq] at hgt
                rw [decide_eq_true_eq] at hgt
                rw [show toQ (none : Option ℚ) = 0 from rfl] at hgt
                have h0 := hacc cur rfl
                linarith
              · apply fromAmerican_decimal_some
                rw [hdq]
                exact Option.noConfusion
          · left
            simp [stepBook, hfind, hpick, hnull, hgt]

/-- Witness for the amended C2 with no best yet and a finite price. -/
theorem spec_C2_considered_amended_witness :
    stepBook "h2h" ⟨none, none, .null, .null⟩
      ⟨some "bk", [⟨some "h2h", some [⟨some "T", .undef, .num 300⟩]⟩]⟩ none = none ∨
    ∃ ment o,
      (⟨some "bk", [⟨some "h2h", some [⟨some "T", .undef, .num 300⟩]⟩]⟩ :
        Bookmaker).markets.find? (fun m => jsToLower (m.key.getD "") == "h2h") = some ment ∧
      jsToLower (ment.key.getD "") = "h2h" ∧
      pickOutcome "h2h" ment.outcomes ⟨none, none, .null, .null⟩ = some o ∧
      jsLooseEqNull o.price = false ∧
      stepBook "h2h" ⟨none, none, .null, .null⟩
        ⟨some "bk", [⟨some "h2h", some [⟨some "T", .undef, .num 300⟩]⟩]⟩ none =
        some ⟨some "bk", o.price, (fromAmerican o.price).decimal,
          (fromAmerican o.price).impliedPct, o.point⟩ ∧
      (∀ cur, (none : Option Best) = some cur → ∃ q, jsToNumber o.price = some q ∧ q ≠ 0) :=
  spec_C2_considered_amended "h2h" ⟨none, none, .null, .null⟩
    ⟨some "bk", [⟨some "h2h", some [⟨some "T", .undef, .num 300⟩]⟩]⟩ none
    (fun cur h => Option.noConfusion h)

/-- C7 (amended): upstream failures are absorbed and the function
returns its best-known result at the point of failure: a fetch or parse
failure and a non-ok status yield the seed-derived record when a line
was provided (otherwise the empty mapping), while a traversal throw
inside the bookmaker loop cuts the scan short and keeps the best found
so far. -/
theorem spec_C7_failures_absorbed_amended (cfg : Config) (a : FetchArgs) :
    (∀ up : Upstream, up = .exn ∨ up = .notOk →
      fetchOddsAndNormalize cfg a up =
        (if jsTruthy a.line then
          some ⟨none, a.line, (fromAmerican a.line).decimal, (fromAmerican a.line).impliedPct,
            none⟩
        else none)) ∧
    (∀ (mkKey : String) (c : Criteria) (bs1 : List (Option Bookmaker)),
      (∀ x ∈ bs1, x ≠ none) →
      ∀ (bs2 : List (Option Bookmaker)) (acc : Option Best),
        scanBooks mkKey c (bs1 ++ none :: bs2) acc = scanBooks mkKey c bs1 acc) := by
  constructor
  · rintro up (rfl | rfl)
    · simp only [fetchOddsAndNormalize]
      by_cases hcf : canFetch cfg a
      · rw [if_pos hcf, buildOut_seed]
      · rw [if_neg hcf, buildOut_seed]
    · simp only [fetchOddsAndNormalize]
      by_cases hcf : canFetch cfg a
      · rw [if_pos hcf, buildOut_seed]
      · rw [if_neg hcf, buildOut_seed]
  · intro mkKey c bs1
    induction bs1 with
    | nil =>
      intro _ bs2 acc
      rfl
    | cons x t ihh =>
      intro hbs1 bs2 acc
      cases x with
      | none => exact absurd rfl (hbs1 none (List.mem_cons_self _ _))
      | some b =>
        simp only [List.cons_append, scanBooks]
        exact ihh (fun y hy => hbs1 y (List.mem_cons.2 (Or.inr hy))) bs2 _

/-- C7 (counterexample to the claim as stated): a traversal throw after
one bookmaker has been scanned is absorbed, but the function returns the
partially scanned best, not the seed-derived record, even though a
truthy line was provided. -/
theorem spec_C7_counterexample :
    jsTruthy JsVal.nanStr = true ∧
    fetchOddsAndNormalize ⟨"b", "k"⟩
      ⟨some "nfl", some "h2h", none, none, .null, .null, ["dk"], .nanStr⟩
      (.ok [⟨some "X", some "Y",
        some [some ⟨some "dk", [⟨some "h2h", some [⟨some "T", .undef, .num 300⟩]⟩]⟩,
          none]⟩]) =
      some ⟨some "dk", .num 300, some 4, some 25, none⟩ ∧
    fetchOddsAndNormalize ⟨"b", "k"⟩
      ⟨some "nfl", some "h2h", none, none, .null, .null, ["dk"], .nanStr⟩ .exn =
      some ⟨none, .nanStr, none, none, none⟩ ∧
    (⟨some "dk", .num 300, some 4, some 25, none⟩ : OutRec) ≠
      ⟨none, .nanStr, none, none, none⟩ := by
  refine ⟨rfl, ?_, by decide, by decide⟩
  have h300 : fromAmerican (.num 300) = ⟨some 4, some 25⟩ := by
    norm_num [fromAmerican, jsToNumber, jsNumberFn, jsToFixed]
  rw [fetch_ok_scan _ _ _
    ⟨some "X", some "Y",
      some [some ⟨some "dk", [⟨some "h2h", some [⟨some "T", .undef, .num 300⟩]⟩]⟩, none]⟩
    [some ⟨some "dk", [⟨some "h2h", some [⟨some "T", .undef, .num 300⟩]⟩]⟩, none]
    (by decide) (by decide) rfl]
  simp only [scanBooks,
    show seedBest .nanStr = some ⟨none, .nanStr, none, none, .undef⟩ from rfl, stepBook,
    show ((⟨some "dk", [⟨some "h2h", some [⟨some "T", .undef, .num 300⟩]⟩]⟩ :
        Bookmaker).markets.find?
      (fun m => jsToLower (m.key.getD "") == normalizeMarket (some "h2h"))) =
      some ⟨some "h2h", some [⟨some "T", .undef, .num 300⟩]⟩ from by decide,
    show pickOutcome (normalizeMarket (some "h2h"))
      (some [⟨some "T", .undef, .num 300⟩])
      (critOf ⟨some "nfl", some "h2h", none, none, .null, .null, ["dk"], .nanStr⟩) =
      some ⟨some "T", .undef, .num 300⟩ from by decide,
    h300,
    show jsGT (some (4 : ℚ)) none = true from by norm_num [jsGT]]
  decide

/-- Witness for the amended C7: concrete absorbed failure and a concrete
cut-short scan. -/
theorem spec_C7_failures_absorbed_amended_witness :
    ((Upstream.exn = Upstream.exn ∨ Upstream.exn = Upstream.notOk) ∧
      fetchOddsAndNormalize ⟨"b", "k"⟩
        ⟨some "nfl", some "h2h", none, none, .null, .null, ["dk"], .undef⟩ .exn =
        (if jsTruthy JsVal.undef then
          some ⟨none, .undef, (fromAmerican .undef).decimal, (fromAmerican .undef).impliedPct,
            none⟩
        else none)) ∧
    ((∀ x ∈ [some (⟨some "dk", []⟩ : Bookmaker)], x ≠ none) ∧
      scanBooks "h2h" ⟨none, none, .null, .null⟩
        ([some ⟨some "dk", []⟩] ++ none :: [none]) none =
        scanBooks "h2h" ⟨none, none, .null, .null⟩ [some ⟨some "dk", []⟩] none) := by
  have H := spec_C7_failures_absorbed_amended ⟨"b", "k"⟩
    ⟨some "nfl", some "h2h", none, none, .null, .null, ["dk"], .undef⟩
  refine ⟨⟨Or.inl rfl, H.1 .exn (Or.inl rfl)⟩, ⟨by decide, ?_⟩⟩
  exact H.2 "h2h" ⟨none, none, .null, .null⟩ [some ⟨some "dk", []⟩] (by decide) [none] none
